import Mathlib

/-!
# Shallow embedding of the shift-scheduler engine

This file embeds the core generator `generateSchedule` of
`src/ShiftSchedulerApp.tsx` (v0.7.1) together with the manual-override
operation `assignManual`, and proves / refutes the frozen claims about it.

Modelling conventions:
* JavaScript numbers used for weights are modelled as exact rationals (`ℚ`);
  every weight constant in the source is a short decimal, and the claims
  settled here depend only on exact comparisons (`= 0`, `≤ 0`, `< 1`).
* The pseudo-random generator is the source's linear congruential recurrence
  on a `Nat` seed reduced mod 2^32.
* JavaScript objects keyed by employee id (`assignedCount`, `streak`, …) are
  modelled as insertion-ordered association lists (`List (String × _)`).
  `alSet` updates an existing key in place and appends a fresh key at the end,
  matching object-property semantics; `alGetD` is `obj[k] ?? default`.
* Dates: the engine only ever stores dates of the month being generated
  (strings `ymd year month d`), so the trackers store the clamped day-of-month
  number instead of the date string; `ymdEq_iff_clamp` below justifies the
  translation.  `Row.date` keeps the literal string, as `assignManual`
  compares it.
* The hard-fill pass of the source uses unbounded `while` loops; those are
  modelled with an explicit fuel parameter (the loop body is `fillSlot`).
-/

namespace SrfShift

/-- Association-list lookup: first entry with the given key (JS property read). -/
def alGet {α : Type} : List (String × α) → String → Option α
  | [], _ => none
  | (k', v) :: rest, k => if k' = k then some v else alGet rest k

/-- `obj[k] ?? d` / `obj[k] || d`. -/
def alGetD {α : Type} (l : List (String × α)) (k : String) (d : α) : α :=
  (alGet l k).getD d

/-- Association-list write: JS property assignment (update in place, append if new). -/
def alSet {α : Type} : List (String × α) → String → α → List (String × α)
  | [], k, v => [(k, v)]
  | (k', v') :: rest, k, v =>
    if k' = k then (k, v) :: rest else (k', v') :: alSet rest k v

/-- `weekCount[id][w]++` on a plain array, leaving out-of-range indices alone. -/
def listIncr (l : List Nat) (i : Nat) : List Nat :=
  l.set i (l.getD i 0 + 1)

/-- The two shift kinds (`"day"` / `"night"` strings in the source). -/
inductive Shift where
  | day
  | night
deriving DecidableEq

/-- One roster entry, as consumed by `generateSchedule`. -/
structure Employee where
  id : String
  name : String
  preference : String     -- "Day" | "Night" | "Neither"
  desiredShifts : Int
  isReserve : Bool
deriving DecidableEq

instance : Inhabited Employee := ⟨⟨"", "", "Day", 0, false⟩⟩

/-- The parameter object of `generateSchedule`.  The source's destructuring
defaults (`weeklyCap = 5`, `maxStreak = 5`, …) are supplied explicitly by
callers here; `seed` is the explicit integer seed (`seedIn`), the
`Math.random()` fallback for an absent seed is outside the deterministic
engine modelled in this file. -/
structure Params where
  employees : List Employee
  year : Int
  monthIndex0 : Nat
  daySlots : Int
  nightSlots : Int
  enforceNoMorningAfterNight : Bool
  weeklyCap : Nat
  maxStreak : Nat
  spreadEnabled : Bool
  useReservesAuto : Bool
  seed : Nat
  hardFill : Bool
deriving DecidableEq

/-- Gregorian leap-year rule (what `new Date(y, m0+1, 0).getDate()` implements). -/
def isLeapYear (y : Int) : Bool :=
  y % 4 = 0 && (y % 100 ≠ 0 || y % 400 = 0)

/-- `daysInMonth(y, m0)` for a zero-based month index in `0..11`. -/
def daysInMonth (y : Int) (m0 : Nat) : Nat :=
  if m0 = 1 then (if isLeapYear y then 29 else 28)
  else if m0 = 3 ∨ m0 = 5 ∨ m0 = 8 ∨ m0 = 10 then 30
  else 31

/-- Days since 1970-01-01 of the civil date `y-m-d` (`m ∈ 1..12`),
Gregorian calendar — the value `new Date(y, m-1, d)` is built from. -/
def daysFromCivil (y : Int) (m : Nat) (d : Nat) : Int :=
  let y' : Int := if m ≤ 2 then y - 1 else y
  let era : Int := (if 0 ≤ y' then y' else y' - 399) / 400
  let yoe : Int := y' - era * 400
  let mp : Nat := (m + 9) % 12
  let doy : Int := (153 * mp + 2) / 5 + d - 1
  let doe : Int := yoe * 365 + yoe / 4 - yoe / 100 + doy
  era * 146097 + doe - 719468

/-- `new Date(y, m0, 1).getDay()` — weekday of the first of the month, 0 = Sunday. -/
def firstWeekday (y : Int) (m0 : Nat) : Nat :=
  ((daysFromCivil y (m0 + 1) 1 + 4) % 7).toNat

/-- `pad2`. -/
def pad2 (n : Nat) : String :=
  if n < 10 then "0" ++ toString n else toString n

/-- The day-of-month that `ymd(y, m0, d)` clamps to. -/
def clampedDay (y : Int) (m0 : Nat) (d : Nat) : Nat :=
  min (daysInMonth y m0) (max 1 d)

/-- `ymd(y, m0, d)`: the date string `"YYYY-MM-DD"` with the day clamped into
the month. -/
def ymd (y : Int) (m0 : Nat) (d : Nat) : String :=
  toString y ++ "-" ++ pad2 (m0 + 1) ++ "-" ++ pad2 (clampedDay y m0 d)

/-! ## Derived configuration (§ pre-pass of `generateSchedule`) -/

def dInM (p : Params) : Nat := daysInMonth p.year p.monthIndex0

def primaries (p : Params) : List Employee := p.employees.filter (fun e => !e.isReserve)

def reserves (p : Params) : List Employee := p.employees.filter (fun e => e.isReserve)

/-- `Math.max(0, e.desiredShifts || 0)`. -/
def desiredOf (e : Employee) : Nat := e.desiredShifts.toNat

def totalDemand (p : Params) : Int :=
  (dInM p : Int) * (max 0 p.daySlots + max 0 p.nightSlots)

def sumDesiredPrimaries (p : Params) : Int :=
  (primaries p).foldl (fun s e => s + max 0 e.desiredShifts) 0

def allowReservesInNormal (p : Params) : Bool :=
  p.useReservesAuto && decide (sumDesiredPrimaries p ≥ totalDemand p)

def weeksInMonth (p : Params) : Nat :=
  (firstWeekday p.year p.monthIndex0 + dInM p + 6) / 7

def dayToWeekIdx (p : Params) (dayNum : Nat) : Nat :=
  (firstWeekday p.year p.monthIndex0 + (dayNum - 1)) / 7

/-- The clamped day stored for the date `ymd(p.year, p.monthIndex0, d)`. -/
def clampDay (p : Params) (d : Nat) : Nat := clampedDay p.year p.monthIndex0 d

/-! ## RNG -/

/-- One step of the linear congruential recurrence
`seed = (seed*1664525 + 1013904223) % 2^32`. -/
def nextSeed (s : Nat) : Nat := (s * 1664525 + 1013904223) % 4294967296

/-- `rng()`: advance the seed and emit `seed / 2^32`. -/
def rngStep (s : Nat) : Nat × ℚ :=
  let s' := nextSeed s
  (s', (s' : ℚ) / 4294967296)

/-! ## Scheduling state (`assignedCount`, `lastNightOn`, …) -/

/-- The per-run mutable trackers of `generateSchedule`, plus the RNG seed.
Date-valued trackers store the day-of-month of the stored `ymd` string. -/
structure Track where
  assignedCount : List (String × Nat)
  lastNightOn : List (String × Nat)
  lastWorkedOn : List (String × Nat)
  streak : List (String × Nat)
  workedOnDay : List (String × List Nat)
  weekCount : List (String × List Nat)
  seed : Nat
deriving DecidableEq

/-- The fresh state built at the start of a run. -/
def initTrack (p : Params) : Track where
  assignedCount := p.employees.map (fun e => (e.id, 0))
  lastNightOn := []
  lastWorkedOn := []
  streak := p.employees.map (fun e => (e.id, 0))
  workedOnDay := p.employees.map (fun e => (e.id, []))
  weekCount := p.employees.map (fun e => (e.id, List.replicate (weeksInMonth p) 0))
  seed := p.seed

/-- `windowCount(id, dayNum, window)`: worked days among
`max(1, dayNum-(window-1)) .. dayNum-1`. -/
def windowCount (t : Track) (id : String) (dayNum window : Nat) : Nat :=
  let start := max 1 (dayNum - (window - 1))
  ((List.range' start (dayNum - start)).filter
    (fun d => (alGetD t.workedOnDay id []).contains d)).length

/-- `updateOnAssign(id, date, dayNum, shiftName)`; the streak rule compares the
calendar-day difference to the previously stored date (always a date of the
same month, so the difference is the difference of day numbers). -/
def updateOnAssign (p : Params) (t : Track) (id : String) (dayNum : Nat)
    (shiftName : Shift) : Track :=
  let newStreak : Nat :=
    match alGet t.lastWorkedOn id with
    | none => 1
    | some prev =>
      if (dayNum : Int) - (prev : Int) = 1 then alGetD t.streak id 0 + 1 else 1
  { t with
    streak := alSet t.streak id newStreak
    lastWorkedOn := alSet t.lastWorkedOn id dayNum
    workedOnDay := alSet t.workedOnDay id (dayNum :: alGetD t.workedOnDay id [])
    lastNightOn :=
      if shiftName = .night then alSet t.lastNightOn id dayNum else t.lastNightOn
    assignedCount := alSet t.assignedCount id (alGetD t.assignedCount id 0 + 1)
    weekCount :=
      alSet t.weekCount id (listIncr (alGetD t.weekCount id []) (dayToWeekIdx p dayNum)) }

/-! ## Weight model -/

def prefWeight (e : Employee) (shift : Shift) : ℚ :=
  if e.preference = "Neither" then 0.8
  else if shift = .day then (if e.preference = "Day" then 1.0 else 0.0)
  else (if e.preference = "Night" then 1.0 else 0.0)

def fairness (t : Track) (e : Employee) : ℚ :=
  let cnt : Nat := alGetD t.assignedCount e.id 0
  1 / (1 + (cnt : ℚ))

def workedYday (t : Track) (id : String) (dayNum : Nat) : Bool :=
  (alGetD t.workedOnDay id []).contains (dayNum - 1)

def restBias (t : Track) (e : Employee) (dayNum : Nat) : ℚ :=
  if workedYday t e.id dayNum then 0.5 else 1.0

def spreadBias (p : Params) (t : Track) (e : Employee) (dayNum : Nat) : ℚ :=
  if !p.spreadEnabled then 1.0
  else
    let w := dayToWeekIdx p dayNum
    let desired := desiredOf e
    if desired = 0 then 1.0
    else
      let targetPerWeek : ℚ := (desired : ℚ) / (max 1 (weeksInMonth p) : ℚ)
      let current := (alGetD t.weekCount e.id []).getD w 0
      if (current : Int) < targetPerWeek.floor then 1.2
      else if (current : Int) > targetPerWeek.ceil then 0.7
      else 1.0

/-- `consecutiveBias`, including the unreachable `1.3` branch of the source. -/
def consecutiveBias (p : Params) (t : Track) (e : Employee) : ℚ :=
  let currentStreak := alGetD t.streak e.id 0
  let desired := desiredOf e
  let assigned := alGetD t.assignedCount e.id 0
  if currentStreak = 0 then 1.2
  else if 1 ≤ currentStreak ∧ currentStreak < p.maxStreak then 1.1
  else if p.maxStreak ≤ currentStreak then 0.0
  else
    let remaining := desired - assigned
    if remaining ≤ 2 ∧ 1 ≤ currentStreak then 1.3
    else 1.0

def desiredBias (t : Track) (e : Employee) : ℚ :=
  let desired := desiredOf e
  let cnt := alGetD t.assignedCount e.id 0
  if desired = 0 then 0.9
  else
    let remain := desired - cnt
    if remain > 0 then 1.6 + min 1.2 ((remain : ℚ) / max 2 ((desired : ℚ) * 0.5))
    else if cnt = desired then 0.5 else 0.25

/-! ## Eligibility -/

/-- `eligibilityReasons(cand, shift, dayNum, dayAlreadyPicked, relax)` — note
that the final "consecutive limit" entry is NOT guarded by `ignoreStreak`. -/
def eligibilityReasons (p : Params) (t : Track) (cand : Employee) (shift : Shift)
    (dayNum : Nat) (dayAlreadyPicked : List String)
    (ignoreWeeklyCap ignoreStreak : Bool) : List String :=
  (if dayAlreadyPicked.contains cand.id then ["already on other shift today"] else []) ++
  (if ignoreStreak = false ∧ p.maxStreak ≤ alGetD t.streak cand.id 0 then
    [">" ++ toString p.maxStreak ++ "-day streak"] else []) ++
  (if shift = .day ∧ p.enforceNoMorningAfterNight = true ∧
      alGet t.lastNightOn cand.id = some (clampDay p (dayNum - 1)) then
    ["morning after night"] else []) ++
  (if ignoreWeeklyCap = false ∧ p.weeklyCap ≤ windowCount t cand.id dayNum 7 then
    ["weekly cap " ++ toString p.weeklyCap] else []) ++
  (if p.maxStreak ≤ alGetD t.streak cand.id 0 then
    [toString p.maxStreak ++ "-day consecutive limit reached"] else [])

def eligible (p : Params) (t : Track) (cand : Employee) (shift : Shift)
    (dayNum : Nat) (dayAlreadyPicked : List String)
    (ignoreWeeklyCap ignoreStreak : Bool) : Bool :=
  (eligibilityReasons p t cand shift dayNum dayAlreadyPicked
    ignoreWeeklyCap ignoreStreak).length = 0

/-- `weightFor`: the hard-ceiling short-circuit returns 0 without drawing the
jitter; otherwise the product of all factors times `0.95 + rng()*0.1`,
floored at 0.  Returns the weight and the seed after the draw. -/
def weightFor (p : Params) (t : Track) (e : Employee) (shift : Shift)
    (dayNum : Nat) (underTargetExistsGlobally : Bool) : ℚ × Nat :=
  if underTargetExistsGlobally = true ∧ desiredOf e ≤ alGetD t.assignedCount e.id 0 then
    (0, t.seed)
  else
    let (s', x) := rngStep t.seed
    (max 0 (prefWeight e shift * desiredBias t e * fairness t e * restBias t e dayNum *
      spreadBias p t e dayNum * consecutiveBias p t e * (0.95 + x * 0.1)), s')

/-! ## Weighted sampling -/

/-- The cumulative-subtraction scan of `randomPickWeighted`: stop at the first
index where the running threshold drops to `≤ 0`. -/
def rpwGo : List (Employee × ℚ) → ℚ → Option Employee
  | [], _ => none
  | (e, w) :: rest, r => if r - w ≤ 0 then some e else rpwGo rest (r - w)

/-- `randomPickWeighted(items, weights, rng)`.  `total` is never `NaN`/`∞` in
exact arithmetic, so the `isFinite` guard of the source reduces to
`total ≤ 0`; the `items[items.length-1]` fallback of the source is the
`getLast?` branch.  Returns the pick and the seed after the draw. -/
def randomPickWeighted (items : List Employee) (weights : List ℚ) (seed : Nat) :
    Option Employee × Nat :=
  let total := weights.foldl (· + ·) 0
  if total ≤ 0 then (none, seed)
  else
    let (s', x) := rngStep seed
    (match rpwGo (items.zip weights) (x * total) with
     | some e => some e
     | none => items.getLast?, s')

/-- `available.map((e) => weightFor(...))`: sequential, threading the seed. -/
def computeWeights (p : Params) (shift : Shift) (dayNum : Nat)
    (underTarget : Bool) : List Employee → Track → List ℚ × Track
  | [], t => ([], t)
  | e :: es, t =>
    let (w, s') := weightFor p t e shift dayNum underTarget
    let (ws, t') := computeWeights p shift dayNum underTarget es { t with seed := s' }
    (w :: ws, t')

/-- `allAllowed.some(e => under-target && eligible)` — recomputed at the start
of each `tryPool` call. -/
def underTargetExists (p : Params) (t : Track) (shift : Shift) (dayNum : Nat)
    (dap : List String) (allAllowed : List Employee) : Bool :=
  allAllowed.any fun e =>
    decide (alGetD t.assignedCount e.id 0 < desiredOf e) &&
      eligible p t e shift dayNum dap false false

/-- The `while (picks.length < needed && available.length > 0)` loop of
`tryPool`.  Each iteration removes the picked id from `available`, so
`available.length` steps of fuel cover every iteration the source performs.
Returns the updated `picks`, `dayAlreadyPicked` and state. -/
def tryPoolLoop (p : Params) (shift : Shift) (dayNum needed : Nat)
    (underTarget : Bool) :
    Nat → List Employee → List String → List String → Track →
      List String × List String × Track
  | 0, _, picks, dap, t => (picks, dap, t)
  | fuel + 1, available, picks, dap, t =>
    if picks.length < needed ∧ available ≠ [] then
      let (weights, t1) := computeWeights p shift dayNum underTarget available t
      let (pick?, s2) := randomPickWeighted available weights t1.seed
      let t2 := { t1 with seed := s2 }
      match pick? with
      | none => (picks, dap, t2)
      | some picked =>
        if underTarget = true ∧ desiredOf picked ≤ alGetD t2.assignedCount picked.id 0 then
          tryPoolLoop p shift dayNum needed underTarget fuel
            (available.filter fun e => e.id ≠ picked.id) picks dap t2
        else
          tryPoolLoop p shift dayNum needed underTarget fuel
            (available.filter fun e => e.id ≠ picked.id)
            (picks ++ [picked.id]) (dap ++ [picked.id])
            (updateOnAssign p t2 picked.id dayNum shift)
    else (picks, dap, t)

/-- One `tryPool(pool)` call: compute `underTargetExistsGlobally` over the
allowed pools, filter `pool` to the eligible candidates, then run the loop. -/
def tryPool (p : Params) (shift : Shift) (dayNum needed : Nat)
    (allAllowed pool : List Employee) (picks dap : List String) (t : Track) :
    List String × List String × Track :=
  let underTarget := underTargetExists p t shift dayNum dap allAllowed
  let available := pool.filter fun e => eligible p t e shift dayNum dap false false
  tryPoolLoop p shift dayNum needed underTarget available.length available picks dap t

/-- Insert-or-increment on the insertion-ordered `reasonCounts` object. -/
def bumpReason (m : List (String × Nat)) (k : String) : List (String × Nat) :=
  alSet m k (alGetD m k 0 + 1)

/-- The result of one `pickShift` call. -/
structure PickResult where
  picks : List String
  missing : Nat
  issues : List String
deriving DecidableEq

/-- `pickShift(needed, shiftName, primaryPool, reservePool, dayAlreadyPicked)`:
primaries first, reserves only if the auto-reserve policy admits them, then
the blank-seat diagnostics. -/
def pickShift (p : Params) (shift : Shift) (dayNum needed : Nat)
    (primaryPool reservePool : List Employee) (dayAlreadyPicked : List String)
    (t : Track) : PickResult × Track :=
  let allAllowed := if allowReservesInNormal p then primaryPool ++ reservePool
    else primaryPool
  let (picks1, dap1, t1) :=
    tryPool p shift dayNum needed allAllowed primaryPool [] dayAlreadyPicked t
  let (picks, dap, t') :=
    if allowReservesInNormal p = true ∧ picks1.length < needed then
      tryPool p shift dayNum needed allAllowed reservePool picks1 dap1 t1
    else (picks1, dap1, t1)
  let issues :=
    if picks.length < needed then
      let pools := allAllowed
      let reasonCounts := pools.foldl (fun m cand =>
        let rs := eligibilityReasons p t' cand shift dayNum dap false false
        let underExists := underTargetExists p t' shift dayNum dap pools
        let rs := rs ++
          (if underExists = true ∧ desiredOf cand ≤ alGetD t'.assignedCount cand.id 0 then
            ["hard ceiling (others under target)"] else [])
        if rs = [] then m else rs.foldl bumpReason m) []
      let summary := String.intercalate ", "
        (reasonCounts.map fun kv => kv.1 ++ " (" ++ toString kv.2 ++ ")")
      if summary ≠ "" then ["Insufficient eligible staff: " ++ summary] else []
    else []
  (⟨picks, needed - picks.length, issues⟩, t')

/-! ## Assignment rows and the strict pass -/

/-- One per-day output row. -/
structure Row where
  date : String
  dayIds : List String
  nightIds : List String
  dayMissing : Nat
  nightMissing : Nat
  dayIssues : List String
  nightIssues : List String
deriving DecidableEq

instance : Inhabited Row := ⟨⟨"", [], [], 0, 0, [], []⟩⟩

/-- One day of PASS 1: day seats, then night seats (which see the day picks
as `dayAlreadyPicked`). -/
def pass1Day (p : Params) (t : Track) (day : Nat) : Row × Track :=
  let (dayRes, t1) := pickShift p .day day (max 0 p.daySlots).toNat
    (primaries p) (reserves p) [] t
  let (nightRes, t2) := pickShift p .night day (max 0 p.nightSlots).toNat
    (primaries p) (reserves p) dayRes.picks t1
  (⟨ymd p.year p.monthIndex0 day, dayRes.picks, nightRes.picks,
    dayRes.missing, nightRes.missing, dayRes.issues, nightRes.issues⟩, t2)

/-- PASS 1 over days `1 .. daysInMonth`, from the fresh state. -/
def pass1 (p : Params) : List Row × Track :=
  (List.range' 1 (dInM p)).foldl
    (fun s day =>
      let (row, t') := pass1Day p s.2 day
      (s.1 ++ [row], t'))
    ([], initTrack p)

/-! ## Hard-fill pass -/

/-- The sort key of the hard-fill tiebreak: largest remaining-desired first,
then lowest assigned count (the JS comparator `(a,b) => rb - ra || ca - cb`). -/
def candKey (t : Track) (e : Employee) : Int × Nat :=
  let cnt : Nat := alGetD t.assignedCount e.id 0
  (-((desiredOf e : Int) - (cnt : Int)), cnt)

def keyLt (k₁ k₂ : Int × Nat) : Bool :=
  k₁.1 < k₂.1 || (k₁.1 = k₂.1 && k₁.2 < k₂.2)

/-- Stable insertion of one candidate into an already sorted list. -/
def sortInsert (t : Track) (e : Employee) : List Employee → List Employee
  | [] => [e]
  | x :: xs =>
    if keyLt (candKey t e) (candKey t x) then e :: x :: xs else x :: sortInsert t e xs

/-- Stable sort by `candKey` — `order.sort(comparator)` of the source
(ECMAScript `Array.prototype.sort` is stable). -/
def sortCandidates (t : Track) (l : List Employee) : List Employee :=
  l.foldl (fun acc e => sortInsert t e acc) []

/-- One `pickStage(relax)` of `fillSlot`: prefer under-target candidates,
filter by double-booking and eligibility, sort, commit the head.  Returns the
chosen id and updated state, or `none` when the stage fails. -/
def pickStage (p : Params) (shift : Shift) (dayNum : Nat)
    (already other : List String) (ignoreWeeklyCap ignoreStreak : Bool)
    (t : Track) : Option (String × Track) :=
  let pools := primaries p ++ reserves p
  let under := pools.filter fun e =>
    decide (alGetD t.assignedCount e.id 0 < desiredOf e)
  let base := if under ≠ [] then under else pools
  let order := base.filter fun e =>
    !already.contains e.id && !other.contains e.id &&
      eligible p t e shift dayNum (already ++ other) ignoreWeeklyCap ignoreStreak
  match sortCandidates t order with
  | [] => none
  | chosen :: _ => some (chosen.id, updateOnAssign p t chosen.id dayNum shift)

/-- The three relaxation stages of `fillSlot` in their fixed order, stopping
at the first stage that yields a candidate. -/
def stagedPick (p : Params) (shift : Shift) (dayNum : Nat)
    (already other : List String) (t : Track) : Option (String × Track) :=
  match pickStage p shift dayNum already other false false t with
  | some r => some r
  | none =>
    match pickStage p shift dayNum already other true false t with
    | some r => some r
    | none => pickStage p shift dayNum already other true true t

/-- `fillSlot(dayIdx, shiftName)`: the three relaxation stages in order, then
the row's missing count is recomputed from the (possibly extended) id list. -/
def fillSlot (p : Params) (days : List Row) (t : Track) (dayIdx : Nat)
    (shift : Shift) : List Row × Track :=
  let row := days.getD dayIdx default
  let dayNum := dayIdx + 1
  let already := if shift = .day then row.dayIds else row.nightIds
  let other := if shift = .day then row.nightIds else row.dayIds
  let staged := stagedPick p shift dayNum already other t
  let (already', t') :=
    match staged with
    | some (cid, t') => (already ++ [cid], t')
    | none => (already, t)
  let row' :=
    if shift = .day then
      { row with dayIds := already', dayMissing := (p.daySlots - already'.length).toNat }
    else
      { row with nightIds := already', nightMissing := (p.nightSlots - already'.length).toNat }
  (days.set dayIdx row', t')

/-- The `while (row.dayMissing > 0) fillSlot(...)` loop of the source, with an
explicit fuel because the source loop need not terminate. -/
def fillLoop (p : Params) (shift : Shift) (idx : Nat) :
    Nat → List Row × Track → List Row × Track
  | 0, s => s
  | fuel + 1, (days, t) =>
    let row := days.getD idx default
    if (if shift = .day then row.dayMissing else row.nightMissing) > 0 then
      fillLoop p shift idx fuel (fillSlot p days t idx shift)
    else (days, t)

/-- PASS 2: for every row in order, fill day seats then night seats. -/
def pass2 (p : Params) (fuel : Nat) (days : List Row) (t : Track) :
    List Row × Track :=
  (List.range days.length).foldl
    (fun s idx => fillLoop p .night idx fuel (fillLoop p .day idx fuel s))
    (days, t)

/-! ## The generator and the manual override -/

structure Meta where
  totalDemand : Int
  sumDesiredPrimaries : Int
  allowReservesInNormal : Bool
deriving DecidableEq

structure Output where
  days : List Row
  meta : Meta
deriving DecidableEq

/-- `generateSchedule(params)` — `fuel` bounds each hard-fill `while` loop
(the source loop is unbounded and, as proved below, can diverge). -/
def generateSchedule (p : Params) (fuel : Nat) : Output :=
  let (rows, t) := pass1 p
  let days := if p.hardFill then (pass2 p fuel rows t).1 else rows
  ⟨days, ⟨totalDemand p, sumDesiredPrimaries p, allowReservesInNormal p⟩⟩

/-- `assignManual(date, shiftName, employeeId)` of the UI layer: a per-row map
that skips rows of other dates, is a no-op when the employee is on the other
shift of that date, and otherwise appends the id and decrements the missing
count (clamped at 0). -/
def assignManual (days : List Row) (date : String) (shift : Shift)
    (employeeId : String) : List Row :=
  days.map fun row =>
    if row.date ≠ date then row
    else
      let other := if shift = .day then row.nightIds else row.dayIds
      if other.contains employeeId then row
      else if shift = .day then
        { row with dayIds := row.dayIds ++ [employeeId],
                   dayMissing := row.dayMissing - 1 }
      else
        { row with nightIds := row.nightIds ++ [employeeId],
                   nightMissing := row.nightMissing - 1 }

/-! ## Auxiliary predicates and spec-side definitions -/

/-- Invariant 1 of the spec: the day list and night list of a row are disjoint. -/
def RowDisj (r : Row) : Prop := ∀ id, id ∈ r.dayIds → id ∉ r.nightIds

/-- The id list `assignManual` appends to. -/
def targetIds : Shift → Row → List String
  | .day, r => r.dayIds
  | .night, r => r.nightIds

/-- The id list of the opposite shift of the same row. -/
def otherIds : Shift → Row → List String
  | .day, r => r.nightIds
  | .night, r => r.dayIds

/-- The missing count `assignManual` decrements. -/
def targetMissing : Shift → Row → Nat
  | .day, r => r.dayMissing
  | .night, r => r.nightMissing

/-- The window claimed by the specification sentence for the weekly cap,
following the words of the spec: the worked days among days `d-7 .. d-1`
inclusive (to be compared with the window the code actually counts). -/
def specTrailingWindowCount (t : Track) (id : String) (dayNum : Nat) : Nat :=
  ((List.range' (dayNum - 7) (dayNum - (dayNum - 7))).filter
    (fun d => (alGetD t.workedOnDay id []).contains d)).length

/-! ## Concrete inputs used by the claim theorems -/

/-- February 2025 roster of three primaries that all prefer day shifts. -/
def empsABC : List Employee :=
  [⟨"a", "A", "Day", 5, false⟩, ⟨"b", "B", "Day", 5, false⟩, ⟨"c", "C", "Day", 5, false⟩]

/-- Hard-fill run for February 2025, one day seat and one night seat,
no-morning-after-night enabled, seed 0. -/
def pC1 : Params := ⟨empsABC, 2025, 1, 1, 1, true, 5, 5, true, false, 0, true⟩

/-- One-employee roster (day preference, desired 9). -/
def empsA9 : List Employee := [⟨"a", "A", "Day", 9, false⟩]

/-- Strict-only run used as a small evaluation scenario. -/
def pW : Params := ⟨empsA9, 2025, 1, 1, 0, true, 5, 5, true, false, 1, false⟩

/-- Hard-fill run with two day seats but a single employee (max consecutive
days 1): the second seat of every day can never be filled. -/
def pC3 : Params := ⟨empsA9, 2025, 1, 2, 0, true, 5, 1, true, false, 1, true⟩

/-- Two primaries: a wants 1 shift, b wants 28, one day seat per day. -/
def empsC4 : List Employee :=
  [⟨"a", "A", "Day", 1, false⟩, ⟨"b", "B", "Day", 28, false⟩]

/-- Strict-only run in which b is regularly blocked by the streak limit. -/
def pC4 : Params := ⟨empsC4, 2025, 1, 1, 0, true, 5, 5, true, false, 0, false⟩

/-- Roster with an opposite-preference employee first: a prefers nights but is
a candidate for the day shift. -/
def empsC8 : List Employee :=
  [⟨"a", "A", "Night", 5, false⟩, ⟨"b", "B", "Day", 5, false⟩]

/-- Seed chosen so that the third rng output (the pick draw of day 1, after
the two jitter draws) is exactly 0. -/
def pC8 : Params := ⟨empsC8, 2025, 1, 1, 0, true, 5, 5, true, false, 1869465083, false⟩

/-- A candidate at the streak limit. -/
def eC6 : Employee := ⟨"x", "X", "Day", 10, false⟩

def pC6 : Params := ⟨[eC6], 2025, 1, 1, 1, true, 5, 5, true, false, 1, true⟩

/-- State in which x has worked days 1-5 (streak 5, the configured maximum). -/
def tC6 : Track :=
  ⟨[("x", 5)], [], [("x", 5)], [("x", 5)], [("x", [5, 4, 3, 2, 1])],
    [("x", [5, 0, 0, 0, 0])], 1⟩

/-- A candidate who worked only day 1. -/
def eC7 : Employee := ⟨"x", "X", "Day", 10, false⟩

def pC7 : Params := ⟨[eC7], 2025, 1, 1, 1, true, 1, 5, true, false, 1, false⟩

/-- State in which x worked day 1 only (streak long expired by day 8). -/
def tC7 : Track :=
  ⟨[("x", 1)], [], [("x", 1)], [("x", 1)], [("x", [1])], [("x", [1, 0, 0, 0, 0])], 1⟩

/-- A candidate with desired 1, assigned 0 and streak 1. -/
def eC9 : Employee := ⟨"x", "X", "Day", 1, false⟩

def pC9 : Params := ⟨[eC9], 2025, 1, 1, 1, true, 5, 5, true, false, 1, false⟩

def tC9 : Track :=
  ⟨[("x", 0)], [], [("x", 1)], [("x", 1)], [("x", [1])], [("x", [1, 0, 0, 0, 0])], 1⟩

/-- A two-row table for exercising `assignManual`: on the first date, x is
already on the day shift and not on the night shift. -/
def wDays : List Row :=
  [⟨"2025-02-01", ["x"], ["y"], 1, 0, [], []⟩,
   ⟨"2025-02-02", [], [], 2, 1, [], []⟩]


/-! ## Supporting lemmas: calendar and dates -/

theorem daysInMonth_le (y : Int) (m0 : Nat) : daysInMonth y m0 ≤ 31 := by
  unfold daysInMonth
  split
  · split <;> omega
  · split <;> omega

theorem daysInMonth_ge (y : Int) (m0 : Nat) : 28 ≤ daysInMonth y m0 := by
  unfold daysInMonth
  split
  · split <;> omega
  · split <;> omega

theorem pad2_inj32 : ∀ a < 32, ∀ b < 32, pad2 a = pad2 b → a = b := by decide

/-- Within one run all stored dates are `ymd y m0 _`, and on those `ymd`
equality is equality of the clamped day numbers — this justifies storing day
numbers instead of date strings in the trackers. -/
theorem ymdEq_iff_clamp (y : Int) (m0 : Nat) (a b : Nat) :
    ymd y m0 a = ymd y m0 b ↔ clampedDay y m0 a = clampedDay y m0 b := by
  have bnd : ∀ d : Nat, clampedDay y m0 d < 32 := by
    intro d
    have := daysInMonth_le y m0
    unfold clampedDay
    omega
  constructor
  · intro h
    have hd := congrArg String.data h
    simp only [ymd, String.data_append, List.append_assoc] at hd
    have h2 :=
      List.append_cancel_left (List.append_cancel_left
        (List.append_cancel_left (List.append_cancel_left hd)))
    exact pad2_inj32 _ (bnd a) _ (bnd b) (String.ext h2)
  · intro h
    unfold ymd
    rw [h]

/-! ## C5: determinism and the LCG contract -/

/-- C5: with an explicit integer seed the generator is a pure function — two
runs on identical input produce identical outputs (rows, id lists, missing
counts and diagnostics alike) — and one rng step follows
`seed = seed*1664525 + 1013904223 mod 2^32` with output `seed / 2^32`,
a value in `[0, 1)`. -/
theorem determinism_and_lcg (p₁ p₂ : Params) (fuel : Nat) (h : p₁ = p₂) :
    generateSchedule p₁ fuel = generateSchedule p₂ fuel ∧
    ∀ s : Nat,
      (rngStep s).1 = (s * 1664525 + 1013904223) % 4294967296 ∧
      (rngStep s).2 = ((rngStep s).1 : ℚ) / 4294967296 ∧
      0 ≤ (rngStep s).2 ∧ (rngStep s).2 < 1 := by
  subst h
  refine ⟨rfl, fun s => ⟨rfl, rfl, ?_, ?_⟩⟩
  · show (0 : ℚ) ≤ (nextSeed s : ℚ) / 4294967296
    positivity
  · show (nextSeed s : ℚ) / 4294967296 < 1
    rw [div_lt_one (by norm_num)]
    have hlt : nextSeed s < 4294967296 := Nat.mod_lt _ (by norm_num)
    exact_mod_cast hlt

theorem determinism_and_lcg_witness :
    generateSchedule pW 0 = generateSchedule pW 0 ∧
    (rngStep 7).1 = (7 * 1664525 + 1013904223) % 4294967296 ∧
    (rngStep 7).2 < 1 :=
  ⟨(determinism_and_lcg pW pW 0 rfl).1,
   ((determinism_and_lcg pW pW 0 rfl).2 7).1,
   ((determinism_and_lcg pW pW 0 rfl).2 7).2.2.2⟩

/-! ## C6: the streak relaxation of hard-fill stage three is dead -/

/-- C6: the claim is refuted by the code — even with `ignoreStreak` set
(hard-fill stage three), a candidate whose streak has reached the configured
maximum receives the unconditional "consecutive limit reached" violation
(line 160 of the source is not guarded by the relax flag), so stage three can
never assign candidates at the streak limit. -/
theorem ignoreStreak_still_blocks_at_limit :
    pC6.maxStreak ≤ alGetD tC6.streak eC6.id 0 ∧
    eligibilityReasons pC6 tC6 eC6 .day 6 [] true true =
      ["5-day consecutive limit reached"] ∧
    eligible pC6 tC6 eC6 .day 6 [] true true = false := by
  with_unfolding_all decide

/-! ## C1: hard fill can put a day shift right after a night shift -/

set_option maxRecDepth 100000 in
/-- C1: refuted by the code — in the hard-fill pass of the concrete run
`pC1` (February 2025, three day-preferring primaries, seed 0,
no-morning-after-night enabled), employee a ends up on the night list of
2025-02-02 and on the day list of 2025-02-03.  Filling the night seat of day
`d-1` never checks the already-fixed day list of day `d`, and the
`lastNightOn` comparison used when filling day seats only sees the most
recently assigned night, so the safety rule is not enforced in the hard-fill
stages (contradicting the source comment "still never double-book or
morning-after-night"). -/
theorem hardFill_violates_noMorningAfterNight :
    pC1.enforceNoMorningAfterNight = true ∧
    ((generateSchedule pC1 8).days.getD 1 default).date = "2025-02-02" ∧
    ((generateSchedule pC1 8).days.getD 2 default).date = "2025-02-03" ∧
    "a" ∈ ((generateSchedule pC1 8).days.getD 1 default).nightIds ∧
    "a" ∈ ((generateSchedule pC1 8).days.getD 2 default).dayIds := by
  with_unfolding_all decide

/-! ## C3: an unfillable seat makes the hard-fill while loop diverge -/

/-- If one `fillSlot` application leaves the state unchanged while the row
still has missing day seats, the `while (row.dayMissing > 0)` loop never
terminates: every fuel bound returns with the guard still true. -/
theorem fillLoop_day_fixpoint (p : Params) (idx : Nat) (s : List Row × Track)
    (hfix : fillSlot p s.1 s.2 idx .day = s)
    (hmiss : 0 < (s.1.getD idx default).dayMissing) :
    ∀ fuel, fillLoop p .day idx fuel s = s := by
  obtain ⟨days, t⟩ := s
  intro fuel
  induction fuel with
  | zero => rfl
  | succ n ih =>
    show fillLoop p .day idx (n + 1) (days, t) = (days, t)
    simp only [fillLoop]
    rw [if_pos (by simpa using hmiss)]
    rw [show fillSlot p days t idx .day = (days, t) from hfix]
    exact ih

/-- `l.set i l[i] = l`. -/
theorem set_getD_self {α : Type} [Inhabited α] (l : List α) (i : Nat) :
    l.set i (l.getD i default) = l := by
  induction l generalizing i with
  | nil => rfl
  | cons x xs ih =>
    cases i with
    | zero => simp [List.getD]
    | succ n =>
      simp only [List.set, List.getD, List.get?]
      rw [show (xs.get? n).getD default = xs.getD n default from rfl]
      rw [ih n]

/-- When all three relaxation stages fail for a day seat and the missing
count already equals its recomputed value, `fillSlot` changes nothing. -/
theorem fillSlot_noop (p : Params) (days : List Row) (t : Track) (idx : Nat)
    (h0 : pickStage p .day (idx + 1) (days.getD idx default).dayIds
      (days.getD idx default).nightIds false false t = none)
    (h1 : pickStage p .day (idx + 1) (days.getD idx default).dayIds
      (days.getD idx default).nightIds true false t = none)
    (h2 : pickStage p .day (idx + 1) (days.getD idx default).dayIds
      (days.getD idx default).nightIds true true t = none)
    (hm : (days.getD idx default).dayMissing =
      (p.daySlots - ((days.getD idx default).dayIds.length : Int)).toNat) :
    fillSlot p days t idx .day = (days, t) := by
  unfold fillSlot stagedPick
  simp only [reduceIte, h0, h1, h2]
  rw [← hm]
  exact congrArg (fun l => (l, t)) (set_getD_self days idx)

set_option maxRecDepth 4000 in
/-- C3: refuted by the code — on `pC3` (two day seats, a single employee,
max consecutive days 1) all three relaxation stages fail for the second day
seat of day 1 in the state the strict pass ends in (the only candidate is
already on that shift), `fillSlot` is a no-op fixpoint, the missing count
stays positive, and the source loop
`while (row.dayMissing > 0) fillSlot(idx, "day")` never terminates (the
"leave blank if still impossible" comment is defeated): `generateSchedule`
diverges instead of returning with the seat left blank. -/
theorem hardFill_unfillable_seat_loops_forever :
    0 < ((pass1 pC3).1.getD 0 default).dayMissing ∧
    fillSlot pC3 (pass1 pC3).1 (pass1 pC3).2 0 .day =
      ((pass1 pC3).1, (pass1 pC3).2) ∧
    ∀ fuel, fillLoop pC3 .day 0 fuel (pass1 pC3) = pass1 pC3 := by
  have hmiss : 0 < ((pass1 pC3).1.getD 0 default).dayMissing := by
    with_unfolding_all decide
  have hA : pickStage pC3 .day 1 ((pass1 pC3).1.getD 0 default).dayIds
      ((pass1 pC3).1.getD 0 default).nightIds false false (pass1 pC3).2 = none := by
    with_unfolding_all decide
  have hB : pickStage pC3 .day 1 ((pass1 pC3).1.getD 0 default).dayIds
      ((pass1 pC3).1.getD 0 default).nightIds true false (pass1 pC3).2 = none := by
    with_unfolding_all decide
  have hC : pickStage pC3 .day 1 ((pass1 pC3).1.getD 0 default).dayIds
      ((pass1 pC3).1.getD 0 default).nightIds true true (pass1 pC3).2 = none := by
    with_unfolding_all decide
  have hm : ((pass1 pC3).1.getD 0 default).dayMissing =
      (pC3.daySlots - (((pass1 pC3).1.getD 0 default).dayIds.length : Int)).toNat := by
    with_unfolding_all decide
  have hfix : fillSlot pC3 (pass1 pC3).1 (pass1 pC3).2 0 .day =
      ((pass1 pC3).1, (pass1 pC3).2) :=
    fillSlot_noop pC3 (pass1 pC3).1 (pass1 pC3).2 0 hA hB hC hm
  exact ⟨hmiss, hfix, fillLoop_day_fixpoint pC3 0 (pass1 pC3) hfix hmiss⟩

/-! ## C9: the 1.3 streak-bias branch is unreachable -/

/-- C9: refuted at a concrete input — with remaining desired shifts `1 ≤ 2`
and streak `1`, the bias is `1.1`, not the claimed `1.3`. -/
theorem streakBias_13_counterexample :
    desiredOf eC9 - alGetD tC9.assignedCount eC9.id 0 ≤ 2 ∧
    1 ≤ alGetD tC9.streak eC9.id 0 ∧
    consecutiveBias pC9 tC9 eC9 = 1.1 ∧ (1.1 : ℚ) ≠ 1.3 := by
  with_unfolding_all decide

/-- C9 (amended): when remaining desired shifts are at most 2 and the streak
is at least 1, the earlier branches of `consecutiveBias` always fire first:
the factor is `1.1` below the streak maximum and `0` at or above it — never
`1.3` (that branch is dead code). -/
theorem streakBias_13_unreachable (p : Params) (t : Track) (e : Employee)
    (h1 : desiredOf e - alGetD t.assignedCount e.id 0 ≤ 2)
    (h2 : 1 ≤ alGetD t.streak e.id 0) :
    consecutiveBias p t e =
      (if alGetD t.streak e.id 0 < p.maxStreak then 1.1 else 0) := by
  unfold consecutiveBias
  rcases Nat.lt_or_ge (alGetD t.streak e.id 0) p.maxStreak with hlt | hge
  · rw [if_neg (by omega), if_pos ⟨h2, hlt⟩, if_pos hlt]
  · rw [if_neg (by omega), if_neg (by rintro ⟨-, hc⟩; omega), if_pos hge,
      if_neg (by omega)]
    norm_num

theorem streakBias_13_unreachable_witness :
    consecutiveBias pC9 tC9 eC9 =
      (if alGetD tC9.streak eC9.id 0 < pC9.maxStreak then 1.1 else 0) :=
  streakBias_13_unreachable pC9 tC9 eC9 (by decide) (by decide)

/-! ## C7: the weekly-cap window is days d-6..d-1, not d-7..d-1 -/

/-- C7: refuted at a concrete input — a candidate who worked only day 1 has
one worked day in the claimed window `d-7..d-1` for day 8 (`≥` the cap of 1),
yet the code counts the window `d-6..d-1` (days 2..7), finds 0, and the
candidate is eligible. -/
theorem weekly_window_spec_counterexample :
    pC7.weeklyCap ≤ specTrailingWindowCount tC7 "x" 8 ∧
    windowCount tC7 "x" 8 7 < pC7.weeklyCap ∧
    eligible pC7 tC7 eC7 .day 8 [] false false = true := by
  with_unfolding_all decide

/-- C7 (amended): when no other violation applies, a candidate is eligible
without weekly-cap relaxation exactly when the count of worked days in the
trailing window `d-6 .. d-1` (six preceding days) is below the configured
weekly cap. -/
theorem weekly_cap_window_d6 (p : Params) (t : Track) (cand : Employee)
    (shift : Shift) (dayNum : Nat) (dap : List String)
    (h1 : cand.id ∉ dap)
    (h2 : alGetD t.streak cand.id 0 < p.maxStreak)
    (h3 : ¬(shift = .day ∧ p.enforceNoMorningAfterNight = true ∧
      alGet t.lastNightOn cand.id = some (clampDay p (dayNum - 1)))) :
    (eligible p t cand shift dayNum dap false false = true ↔
      ((List.range' (max 1 (dayNum - 6)) (dayNum - max 1 (dayNum - 6))).filter
        (fun d => (alGetD t.workedOnDay cand.id []).contains d)).length <
        p.weeklyCap) := by
  unfold eligible eligibilityReasons windowCount
  split_ifs with hA hB hC hD hE <;> simp_all <;> omega

theorem weekly_cap_window_d6_witness :
    eligible pC7 tC7 eC7 .day 8 [] false false = true ↔
      ((List.range' (max 1 (8 - 6)) (8 - max 1 (8 - 6))).filter
        (fun d => (alGetD tC7.workedOnDay eC7.id []).contains d)).length <
        pC7.weeklyCap :=
  weekly_cap_window_d6 pC7 tC7 eC7 .day 8 [] (by decide) (by decide)
    (by with_unfolding_all decide)

/-! ## C8: weight-0 candidates and the exact-zero draw -/

set_option maxRecDepth 100000 in
/-- C8: refuted at a concrete input — with seed 1869465083 the third rng
output (the pick draw of the first day seat) is exactly 0, and the strict
pass assigns employee a, whose preference is "Night", to the day shift of
day 1: a weight-0 candidate at the front of the pool is selected when the
cumulative-subtraction threshold starts at exactly 0. -/
theorem opposite_pref_assigned_on_zero_draw :
    (empsC8.getD 0 default).preference = "Night" ∧
    "a" ∈ ((generateSchedule pC8 0).days.getD 0 default).dayIds := by
  with_unfolding_all decide

theorem rpwGo_pos (l : List (Employee × ℚ)) (r : ℚ) (hr : 0 < r)
    (e : Employee) (h : rpwGo l r = some e) :
    ∃ pr ∈ l, pr.1 = e ∧ 0 < pr.2 := by
  induction l generalizing r with
  | nil => simp [rpwGo] at h
  | cons x xs ih =>
    obtain ⟨a, w⟩ := x
    rw [rpwGo] at h
    split at h
    · rename_i hw
      have ha : a = e := by simpa using h
      exact ⟨(a, w), List.mem_cons_self _ _, ha, by linarith⟩
    · rename_i hw
      obtain ⟨pr, hmem, hfst, hpos⟩ := ih (r - w) (by linarith) h
      exact ⟨pr, List.mem_cons_of_mem _ hmem, hfst, hpos⟩

theorem rpwGo_total (l : List (Employee × ℚ)) (r : ℚ) (hr : 0 < r)
    (hsum : r ≤ (l.map Prod.snd).sum) : rpwGo l r ≠ none := by
  induction l generalizing r with
  | nil =>
    simp only [List.map_nil, List.sum_nil] at hsum
    linarith
  | cons x xs ih =>
    obtain ⟨a, w⟩ := x
    rw [rpwGo]
    split
    · simp
    · rename_i hw
      apply ih (r - w) (by linarith)
      simp only [List.map_cons, List.sum_cons] at hsum
      linarith

theorem foldl_add_eq_sum (l : List ℚ) (a : ℚ) : l.foldl (· + ·) a = a + l.sum := by
  induction l generalizing a with
  | nil => simp
  | cons x xs ih =>
    simp only [List.foldl_cons, List.sum_cons, ih]
    ring

theorem map_snd_zip_eq (l1 : List Employee) (l2 : List ℚ)
    (h : l1.length = l2.length) : (l1.zip l2).map Prod.snd = l2 := by
  induction l1 generalizing l2 with
  | nil =>
    cases l2 with
    | nil => rfl
    | cons y ys => simp at h
  | cons x xs ih =>
    cases l2 with
    | nil => simp at h
    | cons y ys =>
      simp only [List.zip_cons_cons, List.map_cons]
      rw [ih ys (by simpa using h)]

theorem zip_mem_getD (l1 : List Employee) (l2 : List ℚ) (pr : Employee × ℚ)
    (h : pr ∈ l1.zip l2) :
    ∃ i, i < l1.length ∧ l1.getD i default = pr.1 ∧ l2.getD i 0 = pr.2 := by
  induction l1 generalizing l2 with
  | nil => simp [List.zip] at h
  | cons a l1' ih =>
    cases l2 with
    | nil => simp [List.zip] at h
    | cons w l2' =>
      rw [List.zip_cons_cons] at h
      rcases List.mem_cons.mp h with heq | hmem
      · exact ⟨0, by simp, by simp [heq, List.getD], by simp [heq, List.getD]⟩
      · obtain ⟨i, hi, h1, h2⟩ := ih l2' hmem
        exact ⟨i + 1, by simpa using hi, by simpa [List.getD] using h1,
          by simpa [List.getD] using h2⟩

/-- C8 (amended): an opposite-preference candidate has weight exactly 0 in
the strict pass, and whenever the rng output backing a pick draw is nonzero
the selected candidate sits at a position of positive weight — so an
opposite-preference candidate can only ever be chosen on an exact-zero
draw. -/
theorem opposite_pref_weight_zero_and_positive_pick :
    (∀ (p : Params) (t : Track) (e : Employee) (dayNum : Nat) (ut : Bool),
      (e.preference = "Night" → (weightFor p t e .day dayNum ut).1 = 0) ∧
      (e.preference = "Day" → (weightFor p t e .night dayNum ut).1 = 0)) ∧
    (∀ (items : List Employee) (weights : List ℚ) (seed : Nat) (e : Employee)
      (s' : Nat), items.length = weights.length → nextSeed seed ≠ 0 →
      randomPickWeighted items weights seed = (some e, s') →
      ∃ i, i < items.length ∧ items.getD i default = e ∧ 0 < weights.getD i 0) := by
  constructor
  · intro p t e dayNum ut
    have hz : ∀ (sh : Shift), prefWeight e sh = 0 →
        (weightFor p t e sh dayNum ut).1 = 0 := by
      intro sh hp
      unfold weightFor
      split
      · rfl
      · have hy : rngStep t.seed = (nextSeed t.seed, ((nextSeed t.seed : ℚ)) / 4294967296) := rfl
        rw [hy]
        simp [hp]
    constructor
    · intro h
      apply hz
      simp [prefWeight, h] <;> norm_num
    · intro h
      apply hz
      simp [prefWeight, h] <;> norm_num
  · intro items weights seed e s' hlen hseed h
    unfold randomPickWeighted at h
    rw [show rngStep seed = (nextSeed seed, ((nextSeed seed : ℚ)) / 4294967296)
      from rfl] at h
    by_cases htot : (weights.foldl (· + ·) 0) ≤ 0
    · rw [if_pos htot] at h
      simp at h
    · rw [if_neg htot] at h
      push_neg at htot
      dsimp only at h
      rw [Prod.mk.injEq] at h
      have hx0 : (0 : ℚ) < (nextSeed seed : ℚ) / 4294967296 := by
        have hpos : 0 < nextSeed seed := Nat.pos_of_ne_zero hseed
        apply div_pos
        · exact_mod_cast hpos
        · norm_num
      have hx1 : (nextSeed seed : ℚ) / 4294967296 < 1 := by
        rw [div_lt_one (by norm_num)]
        have : nextSeed seed < 4294967296 :=
          Nat.mod_lt _ (by norm_num : (0:Nat) < 4294967296)
        exact_mod_cast this
      have hr0 : 0 < (nextSeed seed : ℚ) / 4294967296 * (weights.foldl (· + ·) 0) :=
        mul_pos hx0 htot
      rcases hgo : rpwGo (items.zip weights)
          ((nextSeed seed : ℚ) / 4294967296 * (weights.foldl (· + ·) 0)) with _ | a
      · exfalso
        apply rpwGo_total (items.zip weights) _ hr0 _ hgo
        rw [map_snd_zip_eq items weights hlen]
        rw [show (weights.foldl (· + ·) 0 : ℚ) = weights.sum
          from by rw [foldl_add_eq_sum, zero_add]] at htot ⊢
        nlinarith [hx1, htot]
      · rw [hgo] at h
        have he : a = e := by simpa using h.1
        obtain ⟨pr, hmem, hfst, hpos⟩ := rpwGo_pos _ _ hr0 _ hgo
        obtain ⟨i, hi, h1, h2⟩ := zip_mem_getD items weights pr hmem
        exact ⟨i, hi, by rw [h1, hfst, he], by rw [h2]; exact hpos⟩

set_option maxRecDepth 10000 in
theorem opposite_pref_weight_zero_and_positive_pick_witness :
    (weightFor pC8 (initTrack pC8) (empsC8.getD 0 default) .day 1 false).1 = 0 ∧
    ∃ i, i < empsC8.length ∧ empsC8.getD i default = empsC8.getD 1 default ∧
      0 < ([0, 1] : List ℚ).getD i 0 := by
  refine ⟨(opposite_pref_weight_zero_and_positive_pick.1 pC8 (initTrack pC8)
      (empsC8.getD 0 default) 1 false).1 (by decide),
    opposite_pref_weight_zero_and_positive_pick.2 empsC8 [0, 1] 0
      (empsC8.getD 1 default) (nextSeed 0) (by decide) (by decide) ?_⟩
  with_unfolding_all decide

/-! ## C10: the manual-override assign operation -/

/-- C10: `assignManual` leaves rows of other dates unchanged; on the row of
the requested date it is a no-op exactly when the employee is on the opposite
shift list; otherwise it appends the id to the targeted list — even when the
id is already there, in which case the list ends up with a duplicate — and
decrements that shift's missing count (clamped at 0). -/
theorem assignManual_spec (days : List Row) (date : String) (shift : Shift)
    (id : String) (i : Nat) (hi : i < days.length) :
    (assignManual days date shift id).length = days.length ∧
    ((days.getD i default).date ≠ date →
      (assignManual days date shift id).getD i default = days.getD i default) ∧
    ((days.getD i default).date = date →
      id ∈ otherIds shift (days.getD i default) →
      (assignManual days date shift id).getD i default = days.getD i default) ∧
    ((days.getD i default).date = date →
      id ∉ otherIds shift (days.getD i default) →
      targetIds shift ((assignManual days date shift id).getD i default) =
        targetIds shift (days.getD i default) ++ [id] ∧
      otherIds shift ((assignManual days date shift id).getD i default) =
        otherIds shift (days.getD i default) ∧
      targetMissing shift ((assignManual days date shift id).getD i default) =
        targetMissing shift (days.getD i default) - 1 ∧
      (id ∈ targetIds shift (days.getD i default) →
        2 ≤ (targetIds shift ((assignManual days date shift id).getD i default)).count id)) := by
  obtain ⟨r, hr⟩ : ∃ r, days[i]? = some r :=
    ⟨days[i], by simp [List.getElem?_eq_getElem hi]⟩
  have hD : days.getD i default = r := by simp [List.getD, hr]
  have hM : ∀ f : Row → Row, (days.map f).getD i default = f r := by
    intro f
    simp [List.getD, List.getElem?_map, hr]
  have hcount : ∀ l : List String, id ∈ l → 2 ≤ (l ++ [id]).count id := by
    intro l hl
    rw [List.count_append]
    have h1 : 0 < l.count id := List.count_pos_iff.mpr hl
    have h2 : ([id] : List String).count id = 1 := by simp
    omega
  refine ⟨by simp [assignManual], ?_, ?_, ?_⟩
  · intro hd
    rw [hD] at hd
    rw [assignManual, hM, hD, if_pos hd]
  · intro hd hmem
    rw [hD] at hd hmem
    rw [assignManual, hM, hD, if_neg (by simp [hd])]
    cases shift
    · simp only [otherIds] at hmem
      simp [hmem]
    · simp only [otherIds] at hmem
      simp [hmem]
  · intro hd hmem
    rw [hD] at hd hmem
    rw [assignManual, hM, hD, if_neg (by simp [hd])]
    cases shift
    · simp only [otherIds] at hmem
      rw [if_neg (by simp [hmem])]
      refine ⟨by simp [targetIds], by simp [otherIds], by simp [targetMissing],
        fun hl => ?_⟩
      simp only [targetIds] at hl ⊢
      simpa using hcount _ hl
    · simp only [otherIds] at hmem
      rw [if_neg (by simp [hmem])]
      refine ⟨by simp [targetIds], by simp [otherIds], by simp [targetMissing],
        fun hl => ?_⟩
      simp only [targetIds] at hl ⊢
      simpa using hcount _ hl

theorem assignManual_spec_witness :
    targetIds Shift.day ((assignManual wDays "2025-02-01" Shift.day "x").getD 0 default) =
      targetIds Shift.day (wDays.getD 0 default) ++ ["x"] ∧
    targetMissing Shift.day ((assignManual wDays "2025-02-01" Shift.day "x").getD 0 default) =
      targetMissing Shift.day (wDays.getD 0 default) - 1 ∧
    2 ≤ (targetIds Shift.day ((assignManual wDays "2025-02-01" Shift.day "x").getD 0 default)).count "x" := by
  have h := (assignManual_spec wDays "2025-02-01" Shift.day "x" 0 (by decide)).2.2.2
    (by decide) (by decide)
  exact ⟨h.1, h.2.2.1, h.2.2.2 (by decide)⟩

/-! ## C2: day and night lists of one row are disjoint -/

theorem rpwGo_mem (l : List (Employee × ℚ)) (r : ℚ) (e : Employee)
    (h : rpwGo l r = some e) : ∃ pr ∈ l, pr.1 = e := by
  induction l generalizing r with
  | nil => simp [rpwGo] at h
  | cons x xs ih =>
    obtain ⟨a, w⟩ := x
    rw [rpwGo] at h
    split at h
    · exact ⟨(a, w), List.mem_cons_self _ _, by simpa using h⟩
    · obtain ⟨pr, hmem, hfst⟩ := ih (r - w) h
      exact ⟨pr, List.mem_cons_of_mem _ hmem, hfst⟩

theorem randomPickWeighted_mem (items : List Employee) (weights : List ℚ)
    (seed : Nat) (e : Employee) (s2 : Nat)
    (h : randomPickWeighted items weights seed = (some e, s2)) : e ∈ items := by
  unfold randomPickWeighted at h
  rw [show rngStep seed = (nextSeed seed, ((nextSeed seed : ℚ)) / 4294967296)
    from rfl] at h
  by_cases htot : (weights.foldl (· + ·) 0) ≤ 0
  · rw [if_pos htot] at h
    simp at h
  · rw [if_neg htot] at h
    dsimp only at h
    rw [Prod.mk.injEq] at h
    rcases hgo : rpwGo (items.zip weights)
        ((nextSeed seed : ℚ) / 4294967296 * (weights.foldl (· + ·) 0)) with _ | a
    · rw [hgo] at h
      have h1 : items.getLast? = some e := by simpa using h.1
      exact List.mem_of_mem_getLast? (by simp [h1])
    · rw [hgo] at h
      have ha : a = e := by simpa using h.1
      obtain ⟨⟨pa, pw⟩, hmem, hfst⟩ := rpwGo_mem _ _ _ hgo
      have hpa : pa ∈ items := (List.of_mem_zip hmem).1
      rw [← ha, ← hfst]
      exact hpa

theorem tryPoolLoop_picks_subset (p : Params) (sh : Shift) (dn nd : Nat)
    (ut : Bool) :
    ∀ (fuel : Nat) (avail : List Employee) (picks dap : List String) (t : Track)
      (x : String),
    x ∈ (tryPoolLoop p sh dn nd ut fuel avail picks dap t).1 →
    x ∈ picks ∨ x ∈ avail.map Employee.id := by
  intro fuel
  induction fuel with
  | zero =>
    intro avail picks dap t x hx
    simp only [tryPoolLoop] at hx
    exact Or.inl hx
  | succ n ih =>
    intro avail picks dap t x hx
    rw [tryPoolLoop] at hx
    split at hx
    · rcases hw : computeWeights p sh dn ut avail t with ⟨weights, t1⟩
      rw [hw] at hx
      dsimp only at hx
      rcases hrp : randomPickWeighted avail weights t1.seed with ⟨pickq, s2⟩
      rw [hrp] at hx
      dsimp only at hx
      cases pickq with
      | none =>
        dsimp only at hx
        exact Or.inl hx
      | some picked =>
        dsimp only at hx
        split at hx
        · rcases ih _ _ _ _ _ hx with h | h
          · exact Or.inl h
          · right
            obtain ⟨e1, he1, hid⟩ := List.mem_map.mp h
            exact List.mem_map.mpr ⟨e1, List.mem_of_mem_filter he1, hid⟩
        · rcases ih _ _ _ _ _ hx with h | h
          · rcases List.mem_append.mp h with h1 | h1
            · exact Or.inl h1
            · right
              have hx1 : x = picked.id := by simpa using h1
              have hpicked : picked ∈ avail :=
                randomPickWeighted_mem _ _ _ _ _ hrp
              exact hx1 ▸ List.mem_map_of_mem _ hpicked
          · right
            obtain ⟨e1, he1, hid⟩ := List.mem_map.mp h
            exact List.mem_map.mpr ⟨e1, List.mem_of_mem_filter he1, hid⟩
    · exact Or.inl hx

theorem tryPoolLoop_dap_mono (p : Params) (sh : Shift) (dn nd : Nat)
    (ut : Bool) :
    ∀ (fuel : Nat) (avail : List Employee) (picks dap : List String) (t : Track)
      (x : String), x ∈ dap →
    x ∈ (tryPoolLoop p sh dn nd ut fuel avail picks dap t).2.1 := by
  intro fuel
  induction fuel with
  | zero =>
    intro avail picks dap t x hx
    simpa only [tryPoolLoop] using hx
  | succ n ih =>
    intro avail picks dap t x hx
    rw [tryPoolLoop]
    split
    · rcases hw : computeWeights p sh dn ut avail t with ⟨weights, t1⟩
      dsimp only
      rcases hrp : randomPickWeighted avail weights t1.seed with ⟨pickq, s2⟩
      dsimp only
      cases pickq with
      | none => exact hx
      | some picked =>
        dsimp only
        split
        · exact ih _ _ _ _ _ hx
        · exact ih _ _ _ _ _ (List.mem_append_left _ hx)
    · exact hx

theorem eligible_id_not_mem_dap (p : Params) (t : Track) (cand : Employee)
    (sh : Shift) (dn : Nat) (dap : List String) (iw ist : Bool)
    (h : eligible p t cand sh dn dap iw ist = true) : cand.id ∉ dap := by
  intro hmem
  simp [eligible, eligibilityReasons] at h
  exact h.1 hmem

theorem tryPool_picks_avoid (p : Params) (sh : Shift) (dn nd : Nat)
    (allA pool : List Employee) (picks dap : List String) (t : Track)
    (S : List String) (hS : ∀ x ∈ S, x ∈ dap) :
    ∀ id ∈ (tryPool p sh dn nd allA pool picks dap t).1, id ∈ picks ∨ id ∉ S := by
  intro id hid
  simp only [tryPool] at hid
  rcases tryPoolLoop_picks_subset p sh dn nd _ _ _ _ _ _ _ hid with h | h
  · exact Or.inl h
  · right
    intro hs
    obtain ⟨e1, he1, hid1⟩ := List.mem_map.mp h
    have hel : eligible p t e1 sh dn dap false false = true :=
      (List.mem_filter.mp he1).2
    exact eligible_id_not_mem_dap p t e1 sh dn dap false false hel (hid1 ▸ hS id hs)

theorem tryPool_dap_mono (p : Params) (sh : Shift) (dn nd : Nat)
    (allA pool : List Employee) (picks dap : List String) (t : Track) :
    ∀ x ∈ dap, x ∈ (tryPool p sh dn nd allA pool picks dap t).2.1 := by
  intro x hx
  simp only [tryPool]
  exact tryPoolLoop_dap_mono p sh dn nd _ _ _ _ _ _ _ hx

theorem pickShift_picks_avoid (p : Params) (sh : Shift) (dn nd : Nat)
    (pp rp : List Employee) (dap : List String) (t : Track) :
    ∀ id ∈ (pickShift p sh dn nd pp rp dap t).1.picks, id ∉ dap := by
  intro id hid
  simp only [pickShift] at hid
  rcases h1 : tryPool p sh dn nd
      (if allowReservesInNormal p = true then pp ++ rp else pp) pp [] dap t with
    ⟨picks1, dap1, t1⟩
  rw [h1] at hid
  dsimp only at hid
  have ha1 : ∀ x ∈ picks1, x ∈ ([] : List String) ∨ x ∉ dap := by
    intro x hx
    have := tryPool_picks_avoid p sh dn nd
      (if allowReservesInNormal p = true then pp ++ rp else pp) pp [] dap t dap
      (fun y hy => hy)
    rw [h1] at this
    exact this x hx
  by_cases hc : allowReservesInNormal p = true ∧ picks1.length < nd
  · rw [if_pos hc] at hid
    rcases h2 : tryPool p sh dn nd
        (if allowReservesInNormal p = true then pp ++ rp else pp) rp picks1 dap1
        t1 with ⟨picks2, dap2, t2⟩
    rw [h2] at hid
    dsimp only at hid
    have hd1 : ∀ x ∈ dap, x ∈ dap1 := by
      intro x hx
      have := tryPool_dap_mono p sh dn nd
        (if allowReservesInNormal p = true then pp ++ rp else pp) pp [] dap t x hx
      rw [h1] at this
      exact this
    have ha2 : ∀ x ∈ picks2, x ∈ picks1 ∨ x ∉ dap := by
      intro x hx
      have := tryPool_picks_avoid p sh dn nd
        (if allowReservesInNormal p = true then pp ++ rp else pp) rp picks1 dap1
        t1 dap hd1
      rw [h2] at this
      exact this x hx
    rcases ha2 id hid with h | h
    · rcases ha1 id h with h1 | h1
      · simp at h1
      · exact h1
    · exact h
  · rw [if_neg hc] at hid
    dsimp only at hid
    rcases ha1 id hid with h1 | h1
    · simp at h1
    · exact h1

theorem pass1Day_disj (p : Params) (t : Track) (day : Nat) :
    RowDisj (pass1Day p t day).1 := by
  intro id hd hn
  unfold pass1Day at hd hn
  rcases h1 : pickShift p .day day (max 0 p.daySlots).toNat (primaries p)
      (reserves p) [] t with ⟨dayRes, t1⟩
  rw [h1] at hd hn
  dsimp only at hd hn
  rcases h2 : pickShift p .night day (max 0 p.nightSlots).toNat (primaries p)
      (reserves p) dayRes.picks t1 with ⟨nightRes, t2⟩
  rw [h2] at hn
  dsimp only at hn
  have key := pickShift_picks_avoid p .night day (max 0 p.nightSlots).toNat
    (primaries p) (reserves p) dayRes.picks t1
  rw [h2] at key
  exact key id hn hd

theorem pass1_rows_disj (p : Params) : ∀ r ∈ (pass1 p).1, RowDisj r := by
  have key : ∀ (ds : List Nat) (acc : List Row × Track),
      (∀ r ∈ acc.1, RowDisj r) →
      ∀ r ∈ (ds.foldl (fun s day =>
        let (row, t') := pass1Day p s.2 day
        (s.1 ++ [row], t')) acc).1, RowDisj r := by
    intro ds
    induction ds with
    | nil =>
      intro acc hacc
      simpa using hacc
    | cons d rest ih =>
      intro acc hacc
      rw [List.foldl_cons]
      apply ih
      intro r hr
      rcases hp : pass1Day p acc.2 d with ⟨row, t2⟩
      rw [hp] at hr
      dsimp only at hr
      rcases List.mem_append.mp hr with h | h
      · exact hacc r h
      · have hreq : r = row := by simpa using h
        have hdisj := pass1Day_disj p acc.2 d
        rw [hp] at hdisj
        rw [hreq]
        exact hdisj
  intro r hr
  rw [pass1] at hr
  exact key (List.range' 1 (dInM p)) ([], initTrack p) (by simp) r hr

theorem mem_of_mem_sortInsert (t : Track) (e x : Employee) :
    ∀ l, x ∈ sortInsert t e l → x = e ∨ x ∈ l := by
  intro l
  induction l with
  | nil =>
    intro h
    left
    simpa [sortInsert] using h
  | cons y ys ih =>
    intro h
    rw [sortInsert] at h
    split at h
    · rcases List.mem_cons.mp h with h1 | h1
      · exact Or.inl h1
      · exact Or.inr h1
    · rcases List.mem_cons.mp h with h1 | h1
      · exact Or.inr (h1 ▸ List.mem_cons_self _ _)
      · rcases ih h1 with h2 | h2
        · exact Or.inl h2
        · exact Or.inr (List.mem_cons_of_mem _ h2)

theorem mem_of_mem_sortCandidates (t : Track) (l : List Employee) (x : Employee)
    (h : x ∈ sortCandidates t l) : x ∈ l := by
  have key : ∀ (l2 acc : List Employee),
      x ∈ l2.foldl (fun a e => sortInsert t e a) acc → x ∈ acc ∨ x ∈ l2 := by
    intro l2
    induction l2 with
    | nil =>
      intro acc h2
      exact Or.inl h2
    | cons e es ih =>
      intro acc h2
      rw [List.foldl_cons] at h2
      rcases ih _ h2 with h3 | h3
      · rcases mem_of_mem_sortInsert t e x acc h3 with h4 | h4
        · exact Or.inr (h4 ▸ List.mem_cons_self _ _)
        · exact Or.inl h4
      · exact Or.inr (List.mem_cons_of_mem _ h3)
  rcases key l [] h with h1 | h1
  · simp at h1
  · exact h1

theorem pickStage_some_not_mem (p : Params) (sh : Shift) (dn : Nat)
    (already other : List String) (iw ist : Bool) (t : Track) (cid : String)
    (t2 : Track) (h : pickStage p sh dn already other iw ist t = some (cid, t2)) :
    cid ∉ already ∧ cid ∉ other := by
  simp only [pickStage] at h
  split at h
  · simp at h
  · rename_i chosen rest heq
    have hinj : chosen.id = cid ∧ updateOnAssign p t chosen.id dn sh = t2 := by
      simpa using h
    have hchos : chosen ∈ sortCandidates t _ := heq ▸ List.mem_cons_self chosen rest
    have hord := mem_of_mem_sortCandidates t _ chosen hchos
    have hfil := (List.mem_filter.mp hord).2
    simp only [Bool.and_eq_true, Bool.not_eq_true'] at hfil
    obtain ⟨⟨hna, hno⟩, -⟩ := hfil
    rw [← hinj.1]
    constructor
    · simpa using hna
    · simpa using hno

theorem stagedPick_some_not_mem (p : Params) (sh : Shift) (dn : Nat)
    (already other : List String) (t : Track) (cid : String) (t2 : Track)
    (h : stagedPick p sh dn already other t = some (cid, t2)) :
    cid ∉ already ∧ cid ∉ other := by
  unfold stagedPick at h
  split at h
  · rename_i r heq1
    have hr : r = (cid, t2) := by simpa using h
    rw [hr] at heq1
    exact pickStage_some_not_mem p sh dn already other false false t cid t2 heq1
  · split at h
    · rename_i r heq2
      have hr : r = (cid, t2) := by simpa using h
      rw [hr] at heq2
      exact pickStage_some_not_mem p sh dn already other true false t cid t2 heq2
    · exact pickStage_some_not_mem p sh dn already other true true t cid t2 h

theorem default_row_disj : RowDisj (default : Row) := by
  intro id h
  exact absurd h (List.not_mem_nil id)

theorem fillSlot_disj (p : Params) (days : List Row) (t : Track) (idx : Nat)
    (sh : Shift) (hall : ∀ r ∈ days, RowDisj r) :
    ∀ r ∈ (fillSlot p days t idx sh).1, RowDisj r := by
  have h0 : RowDisj (days.getD idx default) := by
    by_cases hlt : idx < days.length
    · rw [List.getD_eq_getElem _ _ hlt]
      exact hall _ (List.getElem_mem hlt)
    · push_neg at hlt
      have hd : days.getD idx default = default := by
        simp [List.getD, List.getElem?_eq_none hlt]
      rw [hd]
      exact default_row_disj
  intro r hr
  cases sh
  · simp only [fillSlot, eq_self_iff_true, if_true] at hr
    rcases hst : stagedPick p .day (idx + 1) (days.getD idx default).dayIds
        (days.getD idx default).nightIds t with _ | ⟨cid, t2⟩
    · rw [hst] at hr
      dsimp only at hr
      rcases List.mem_or_eq_of_mem_set hr with h | h
      · exact hall r h
      · rw [h]
        intro id hd hn
        exact h0 id hd hn
    · rw [hst] at hr
      dsimp only at hr
      obtain ⟨hcal, hcot⟩ := stagedPick_some_not_mem p .day (idx + 1) _ _ t cid t2 hst
      rcases List.mem_or_eq_of_mem_set hr with h | h
      · exact hall r h
      · rw [h]
        intro id hd hn
        rcases List.mem_append.mp hd with h1 | h1
        · exact h0 id h1 hn
        · have hido : id = cid := by simpa using h1
          exact hcot (hido ▸ hn)
  · simp only [fillSlot,
      show (Shift.night = Shift.day) = False from eq_false (by decide),
      if_false] at hr
    rcases hst : stagedPick p .night (idx + 1) (days.getD idx default).nightIds
        (days.getD idx default).dayIds t with _ | ⟨cid, t2⟩
    · rw [hst] at hr
      dsimp only at hr
      rcases List.mem_or_eq_of_mem_set hr with h | h
      · exact hall r h
      · rw [h]
        intro id hd hn
        exact h0 id hd hn
    · rw [hst] at hr
      dsimp only at hr
      obtain ⟨hcal, hcot⟩ := stagedPick_some_not_mem p .night (idx + 1) _ _ t cid t2 hst
      rcases List.mem_or_eq_of_mem_set hr with h | h
      · exact hall r h
      · rw [h]
        intro id hd hn
        rcases List.mem_append.mp hn with h1 | h1
        · exact h0 id hd h1
        · have hido : id = cid := by simpa using h1
          exact hcot (hido ▸ hd)

theorem fillLoop_disj (p : Params) (sh : Shift) (idx : Nat) :
    ∀ (fuel : Nat) (s : List Row × Track), (∀ r ∈ s.1, RowDisj r) →
    ∀ r ∈ (fillLoop p sh idx fuel s).1, RowDisj r := by
  intro fuel
  induction fuel with
  | zero =>
    intro s hs
    simpa only [fillLoop] using hs
  | succ n ih =>
    intro s hs
    obtain ⟨days, t⟩ := s
    rw [fillLoop]
    split <;> split
    all_goals first
      | exact ih _ (fillSlot_disj p days t idx sh hs)
      | exact hs

theorem pass2_disj (p : Params) (fuel : Nat) (days : List Row) (t : Track)
    (h : ∀ r ∈ days, RowDisj r) : ∀ r ∈ (pass2 p fuel days t).1, RowDisj r := by
  have key : ∀ (idxs : List Nat) (s : List Row × Track), (∀ r ∈ s.1, RowDisj r) →
      ∀ r ∈ (idxs.foldl (fun s idx =>
        fillLoop p .night idx fuel (fillLoop p .day idx fuel s)) s).1, RowDisj r := by
    intro idxs
    induction idxs with
    | nil =>
      intro s hs
      simpa using hs
    | cons i rest ih =>
      intro s hs
      rw [List.foldl_cons]
      exact ih _ (fillLoop_disj p .night i fuel _
        (fillLoop_disj p .day i fuel s hs))
  intro r hr
  rw [pass2] at hr
  exact key (List.range days.length) (days, t) h r hr

/-- C2: in every generated output — strict pass alone or with the hard-fill
pass, for every fuel bound on the hard-fill loops — the day-shift id list and
the night-shift id list of each Assignment Row are disjoint. -/
theorem day_night_disjoint (p : Params) (fuel : Nat) :
    ∀ r ∈ (generateSchedule p fuel).days, ∀ id ∈ r.dayIds, id ∉ r.nightIds := by
  intro r hr
  unfold generateSchedule at hr
  dsimp only at hr
  by_cases hf : p.hardFill = true
  · rw [if_pos hf] at hr
    exact pass2_disj p fuel (pass1 p).1 (pass1 p).2 (pass1_rows_disj p) r hr
  · rw [if_neg hf] at hr
    exact pass1_rows_disj p r hr

set_option maxRecDepth 100000 in
theorem day_night_disjoint_witness :
    "a" ∉ ((generateSchedule pW 0).days.getD 0 default).nightIds :=
  day_night_disjoint pW 0 ((generateSchedule pW 0).days.getD 0 default)
    (by with_unfolding_all decide) "a" (by with_unfolding_all decide)

/-! ## C4: the hard ceiling is per pick, not global -/

set_option maxRecDepth 100000 in
/-- C4: refuted at a concrete input — in the strict-only run `pC4` employee a
(desired 1) ends with 8 assignments while the non-reserve employee b
(desired 28) ends with 20: a was pushed over target on days when b was
ineligible (streak limit), so the end-of-pass global property fails. -/
theorem hard_ceiling_global_counterexample :
    (empsC4.getD 1 default).isReserve = false ∧
    desiredOf (empsC4.getD 0 default) <
      alGetD (pass1 pC4).2.assignedCount "a" 0 ∧
    alGetD (pass1 pC4).2.assignedCount "b" 0 <
      desiredOf (empsC4.getD 1 default) := by
  with_unfolding_all decide

theorem alGet_alSet_self {α : Type} (l : List (String × α)) (k : String)
    (v : α) : alGet (alSet l k v) k = some v := by
  induction l with
  | nil => simp [alSet, alGet]
  | cons x rest ih =>
    obtain ⟨k1, v1⟩ := x
    rw [alSet]
    by_cases h : k1 = k
    · rw [if_pos h, alGet, if_pos rfl]
    · rw [if_neg h, alGet, if_neg h]
      exact ih

theorem alGet_alSet_ne {α : Type} (l : List (String × α)) (k k2 : String)
    (v : α) (h : k2 ≠ k) : alGet (alSet l k v) k2 = alGet l k2 := by
  induction l with
  | nil =>
    rw [alSet, alGet, alGet, if_neg (fun e => h e.symm), alGet]
  | cons x rest ih =>
    obtain ⟨k1, v1⟩ := x
    rw [alSet]
    by_cases h1 : k1 = k
    · rw [if_pos h1, alGet, alGet, if_neg (fun e => h e.symm), if_neg]
      rw [h1]
      exact fun e => h e.symm
    · rw [if_neg h1, alGet, alGet]
      by_cases h2 : k1 = k2
      · rw [if_pos h2, if_pos h2]
      · rw [if_neg h2, if_neg h2]
        exact ih

theorem computeWeights_assignedCount (p : Params) (sh : Shift) (dn : Nat)
    (ut : Bool) : ∀ (es : List Employee) (t : Track),
    (computeWeights p sh dn ut es t).2.assignedCount = t.assignedCount := by
  intro es
  induction es with
  | nil => intro t; rfl
  | cons e2 rest ih =>
    intro t
    rw [computeWeights]
    rcases hw : weightFor p t e2 sh dn ut with ⟨w, s2⟩
    dsimp only
    rcases hc : computeWeights p sh dn ut rest { t with seed := s2 } with ⟨ws, t3⟩
    dsimp only
    have := ih { t with seed := s2 }
    rw [hc] at this
    exact this

theorem tryPoolLoop_count_frozen (p : Params) (sh : Shift) (dn nd : Nat)
    (ut : Bool) :
    ∀ (fuel : Nat) (avail : List Employee) (picks dap : List String) (t : Track)
      (x : String), x ∉ avail.map Employee.id →
    alGet (tryPoolLoop p sh dn nd ut fuel avail picks dap t).2.2.assignedCount x =
      alGet t.assignedCount x := by
  intro fuel
  induction fuel with
  | zero => intro avail picks dap t x hx; rfl
  | succ n ih =>
    intro avail picks dap t x hx
    rw [tryPoolLoop]
    split
    · rcases hw : computeWeights p sh dn ut avail t with ⟨weights, t1⟩
      dsimp only
      rcases hrp : randomPickWeighted avail weights t1.seed with ⟨pickq, s2⟩
      dsimp only
      have ht1 : t1.assignedCount = t.assignedCount := by
        have := computeWeights_assignedCount p sh dn ut avail t
        rw [hw] at this
        exact this
      cases pickq with
      | none =>
        dsimp only
        show alGet t1.assignedCount x = alGet t.assignedCount x
        rw [ht1]
      | some picked =>
        dsimp only
        have hx' : x ∉ (avail.filter (fun e2 => e2.id ≠ picked.id)).map Employee.id := by
          intro h
          obtain ⟨e1, he1, hid1⟩ := List.mem_map.mp h
          exact hx (List.mem_map.mpr ⟨e1, List.mem_of_mem_filter he1, hid1⟩)
        split
        · rw [ih _ _ _ _ _ hx']
          show alGet t1.assignedCount x = alGet t.assignedCount x
          rw [ht1]
        · rw [ih _ _ _ _ _ hx']
          have hxp : x ≠ picked.id := by
            intro h
            exact hx (h ▸ List.mem_map_of_mem _ (randomPickWeighted_mem _ _ _ _ _ hrp))
          unfold updateOnAssign
          dsimp only
          rw [alGet_alSet_ne _ _ _ _ hxp]
          show alGet t1.assignedCount x = alGet t.assignedCount x
          rw [ht1]
    · rfl

/-- C4 (amended): the hard ceiling is enforced per pool scan — whenever the
under-target flag computed at the start of a `tryPool` scan is true, every
employee picked during that scan (with distinct ids in the scanned pool) ends
the scan with an assigned count that does not exceed their desired count.
The code does not guarantee the global end-of-pass property the claim states:
an employee can exceed their target on a day when every remaining under-target
employee is ineligible, while those employees stay under target at the end. -/
theorem hard_ceiling_per_scan (p : Params) (sh : Shift) (dn nd : Nat) :
    ∀ (fuel : Nat) (avail : List Employee) (picks dap : List String) (t : Track)
      (e : Employee),
    (avail.map Employee.id).Nodup → e ∈ avail → e.id ∉ picks →
    e.id ∈ (tryPoolLoop p sh dn nd true fuel avail picks dap t).1 →
    alGetD (tryPoolLoop p sh dn nd true fuel avail picks dap t).2.2.assignedCount
      e.id 0 ≤ desiredOf e := by
  intro fuel
  induction fuel with
  | zero =>
    intro avail picks dap t e hnd hmem hnp hin
    simp only [tryPoolLoop] at hin
    exact absurd hin hnp
  | succ n ih =>
    intro avail picks dap t e hnd hmem hnp hin
    rw [tryPoolLoop] at hin ⊢
    by_cases hg : picks.length < nd ∧ avail ≠ []
    · rw [if_pos hg] at hin ⊢
      rcases hw : computeWeights p sh dn true avail t with ⟨weights, t1⟩
      simp only [hw] at hin ⊢
      rcases hrp : randomPickWeighted avail weights t1.seed with ⟨pickq, s2⟩
      simp only [hrp] at hin ⊢
      cases pickq with
      | none =>
        exact absurd hin hnp
      | some picked =>
        dsimp only at hin ⊢
        have hpicked : picked ∈ avail := randomPickWeighted_mem _ _ _ _ _ hrp
        have hnd' : ((avail.filter (fun x => x.id ≠ picked.id)).map Employee.id).Nodup := by
          have hsub : List.Sublist
              ((avail.filter (fun x => x.id ≠ picked.id)).map Employee.id)
              (avail.map Employee.id) := (List.filter_sublist _).map _
          exact List.Nodup.sublist hsub hnd

        by_cases hskip : True ∧
            desiredOf picked ≤ alGetD t1.assignedCount picked.id 0
        · rw [if_pos hskip] at hin ⊢
          by_cases hid : e.id = picked.id
          · exfalso
            rcases tryPoolLoop_picks_subset p sh dn nd true n _ _ _ _ _ hin with h | h
            · exact hnp h
            · obtain ⟨e1, he1, hid1⟩ := List.mem_map.mp h
              have hpred := (List.mem_filter.mp he1).2
              have hne : e1.id ≠ picked.id := by simpa using hpred
              exact hne (hid1.trans hid)
          · have hmem' : e ∈ avail.filter (fun x => x.id ≠ picked.id) :=
              List.mem_filter.mpr ⟨hmem, by simpa using hid⟩
            exact ih _ _ _ _ _ hnd' hmem' hnp hin
        · rw [if_neg hskip] at hin ⊢
          have hlt : alGetD t1.assignedCount picked.id 0 < desiredOf picked := by
            rcases not_and_or.mp hskip with h | h
            · exact absurd trivial h
            · omega
          by_cases hid : e.id = picked.id
          · have hep : e = picked := List.inj_on_of_nodup_map hnd hmem hpicked hid
            subst hep
            have hnotin : e.id ∉
                (avail.filter (fun x => x.id ≠ e.id)).map Employee.id := by
              intro h
              obtain ⟨e1, he1, hid1⟩ := List.mem_map.mp h
              have hpred := (List.mem_filter.mp he1).2
              have hne : e1.id ≠ e.id := by simpa using hpred
              exact hne hid1
            have hfrozen := tryPoolLoop_count_frozen p sh dn nd true n
              (avail.filter (fun x => x.id ≠ e.id)) (picks ++ [e.id])
              (dap ++ [e.id])
              (updateOnAssign p { t1 with seed := s2 } e.id dn sh) e.id hnotin
            unfold alGetD
            rw [hfrozen]
            unfold updateOnAssign
            dsimp only
            rw [alGet_alSet_self]
            simp only [Option.getD_some]
            omega
          · have hmem' : e ∈ avail.filter (fun x => x.id ≠ picked.id) :=
              List.mem_filter.mpr ⟨hmem, by simpa using hid⟩
            have hnp' : e.id ∉ picks ++ [picked.id] := by
              intro h
              rcases List.mem_append.mp h with h1 | h1
              · exact hnp h1
              · exact hid (by simpa using h1)
            exact ih _ _ _ _ _ hnd' hmem' hnp' hin
    · rw [if_neg hg] at hin
      exact absurd hin hnp

set_option maxRecDepth 100000 in
theorem hard_ceiling_per_scan_witness :
    alGetD (tryPoolLoop pC4 Shift.day 1 1 true 1
        [(⟨"a", "A", "Day", 1, false⟩ : Employee)] [] []
        (initTrack pC4)).2.2.assignedCount
      (Employee.id ⟨"a", "A", "Day", 1, false⟩) 0 ≤
      desiredOf ⟨"a", "A", "Day", 1, false⟩ :=
  hard_ceiling_per_scan pC4 Shift.day 1 1 1
    [(⟨"a", "A", "Day", 1, false⟩ : Employee)] [] [] (initTrack pC4)
    ⟨"a", "A", "Day", 1, false⟩ (by with_unfolding_all decide)
    (by with_unfolding_all decide) (by with_unfolding_all decide)
    (by with_unfolding_all decide)

end SrfShift
